import Mathlib

/-!
Verification of the toxicity analytics aggregation engine of the
YouTube_Toxic repository.  The routes under
`app/api/channel/[id]/users/route.ts` (author rankings),
`app/api/channel/[id]/route.ts` (channel summary, src/unnamed/part_010),
`app/api/analyze-channel` complete analysis (src/unnamed/part_007),
the analytics route (src/unnamed/part_012) and the toxicity timeline
(src/unnamed/part_011) are shallowly embedded below.  JavaScript numbers
are modelled by `ℚ` (toxicity scores) and `ℤ` (like counts); JavaScript
falsiness of `null`/`""`/`0` is modelled explicitly by the `jsOr*`
helpers.  The nondeterministic author-key fallback
`Anonymous_${Date.now()}_${Math.random()}` is modelled by an environment
`env : ℕ → String` giving the freshly generated string for each
iteration of the grouping loop.
-/

/-- JS `a || b` for strings: `""` is falsy. -/
def jsOrS (a b : String) : String := if a = "" then b else a

/-- JS `a || b` for integer numbers: `0` is falsy (`NaN` does not arise here). -/
def jsOrInt (a b : Int) : Int := if a = 0 then b else a

/-- One element of a `comments_data` join array: either a literal `null`
row or an object whose `toxicity_score` may itself be `null`. -/
inductive ToxEntry where
  | enull : ToxEntry
  | eobj (score : Option ℚ) : ToxEntry
  deriving DecidableEq, Repr

/-- The `comments_data` field as it reaches the route code: `null`, an
array of join rows, or a single object (the code defends against all
three shapes). -/
inductive CommentsData where
  | nullV : CommentsData
  | arr (entries : List ToxEntry) : CommentsData
  | obj (score : Option ℚ) : CommentsData
  deriving DecidableEq, Repr

/-- A raw comment row as fetched from storage by the routes.
`userId = none` models SQL `null`; `likeCount` and `timestamp` are the
stored numbers (timestamps as epoch milliseconds). -/
structure Comment where
  id : String
  text : String
  videoId : String
  userId : Option String
  authorName : String
  likeCount : Int
  timestamp : Nat
  commentsData : CommentsData
  deriving DecidableEq, Repr

/-! ## The paged scanner

All routes fetch with the same loop: request `range(offset, offset +
pageSize - 1)`, append, advance `offset += pageSize`, continue while the
page came back with exactly `pageSize` rows.  The store is modelled as
the `id`-ordered list `db`; the request for offset `o` returns
`(db.drop o).take pageSize`, and `efail o = true` makes that request
fail (a storage error).  The result carries the accumulated rows and
the number of page requests issued.  Fuel `db.length + 1` strictly
bounds the number of iterations the loop can make on a finite store. -/

def pagedScanGo (efail : Nat → Bool) (db : List Comment) (ps : Nat) :
    Nat → Nat → List Comment → Nat → Except Unit (List Comment × Nat)
  | 0, _, _, _ => Except.error ()
  | fuel + 1, offset, acc, n =>
    if efail offset then Except.error ()
    else
      let page := (db.drop offset).take ps
      if 0 < ps ∧ page.length = ps then
        pagedScanGo efail db ps fuel (offset + ps) (acc ++ page) (n + 1)
      else Except.ok (acc ++ page, n + 1)

def pagedScan (efail : Nat → Bool) (db : List Comment) (ps : Nat) :
    Except Unit (List Comment × Nat) :=
  pagedScanGo efail db ps (db.length + 1) 0 [] 0

/-- A storage collaborator in which no page request fails. -/
def noFailure : Nat → Bool := fun _ => false

lemma pagedScanGo_ok_total (efail : Nat → Bool) (db : List Comment) (ps : Nat)
    (hps : 0 < ps) (hfail : ∀ o, efail o = false) :
    ∀ fuel offset acc n, 0 < fuel → db.length < offset + fuel * ps →
      pagedScanGo efail db ps fuel offset acc n =
        Except.ok (acc ++ db.drop offset, n + (db.length - offset) / ps + 1) := by
  intro fuel
  induction fuel with
  | zero => intro _ _ _ h; exact absurd h (lt_irrefl 0)
  | succ fuel ih =>
    intro offset acc n _ hfuel
    have hmul : (fuel + 1) * ps = fuel * ps + ps := Nat.succ_mul fuel ps
    rw [hmul] at hfuel
    rw [pagedScanGo]
    rw [hfail offset]
    simp only [Bool.false_eq_true, if_false]
    have hlen : ((db.drop offset).take ps).length = min ps (db.length - offset) := by
      simp [List.length_take, List.length_drop]
    by_cases hfull : ((db.drop offset).take ps).length = ps
    · -- a full page: the loop issues another request
      have hle : ps ≤ db.length - offset := by
        rw [hlen] at hfull
        rcases Nat.le_total ps (db.length - offset) with h | h
        · exact h
        · rw [Nat.min_eq_right h] at hfull; omega
      have hoff : offset + ps ≤ db.length := by omega
      have hfuelpos : 0 < fuel := by
        rcases Nat.eq_zero_or_pos fuel with h | h
        · subst h; omega
        · exact h
      rw [if_pos ⟨hps, hfull⟩]
      rw [ih (offset + ps) (acc ++ (db.drop offset).take ps) (n + 1) hfuelpos (by omega)]
      have hdrop : (db.drop offset).take ps ++ db.drop (offset + ps) = db.drop offset := by
        have : db.drop (offset + ps) = (db.drop offset).drop ps := by
          rw [List.drop_drop, Nat.add_comm]
        rw [this, List.take_append_drop]
      have hdiv : (db.length - (offset + ps)) / ps + 1 = (db.length - offset) / ps := by
        have h1 : db.length - (offset + ps) = (db.length - offset) - ps := by omega
        rw [h1, ← Nat.div_eq_sub_div hps hle]
      have hcount : n + 1 + (db.length - (offset + ps)) / ps + 1 =
          n + (db.length - offset) / ps + 1 := by omega
      rw [List.append_assoc, hdrop, hcount]
    · -- a short page (possibly empty): the loop stops after this request
      rw [if_neg (by rintro ⟨_, h⟩; exact hfull h)]
      have hshort : db.length - offset < ps := by
        rw [hlen] at hfull
        rcases Nat.le_total ps (db.length - offset) with h | h
        · rw [Nat.min_eq_left h] at hfull; omega
        · omega
      have htake : (db.drop offset).take ps = db.drop offset := by
        apply List.take_of_length_le
        simp [List.length_drop]
        omega
      rw [htake]
      have : (db.length - offset) / ps = 0 := Nat.div_eq_of_lt hshort
      rw [this]

/-- C4: The paged scan requests `[offset, offset + pageSize)` pages with the
offset advancing by `pageSize`, stops exactly on the first page that comes
back with strictly fewer than `pageSize` rows (possibly zero), and issues one
more request after every exact-`pageSize` page.  Consequently on an
`n`-row store with no failures it yields all `n` rows using exactly
`n / pageSize + 1` page requests (so a 5-row store with `pageSize = 2`
is fetched by pages of 2, 2, 1 in exactly 3 requests). -/
theorem pagedScan_yields_all_rows (db : List Comment) (ps : Nat) (hps : 0 < ps) :
    pagedScan noFailure db ps = Except.ok (db, db.length / ps + 1) := by
  rw [pagedScan]
  rw [pagedScanGo_ok_total noFailure db ps hps (fun _ => rfl) (db.length + 1) 0 [] 0
    (Nat.succ_pos _) (by
      calc db.length < db.length + 1 := Nat.lt_succ_self _
        _ ≤ (db.length + 1) * ps := Nat.le_mul_of_pos_right _ hps
        _ = 0 + (db.length + 1) * ps := (Nat.zero_add _).symm)]
  simp

/-- Five arbitrary distinct rows used to instantiate the pagination scenario. -/
def scenarioRow (i : Nat) : Comment :=
  ⟨toString i, "t", "v", none, "a", 0, 0, CommentsData.nullV⟩

def scenarioDb : List Comment :=
  [scenarioRow 0, scenarioRow 1, scenarioRow 2, scenarioRow 3, scenarioRow 4]

/-- Witness for C4: with `pageSize = 2` and a 5-row store (pages of 2, 2,
then 1) the scan issues exactly 3 requests and yields all 5 rows. -/
theorem pagedScan_yields_all_rows_witness :
    0 < 2 ∧ pagedScan noFailure scenarioDb 2 = Except.ok (scenarioDb, 3) :=
  ⟨by decide, pagedScan_yields_all_rows scenarioDb 2 (by decide)⟩

/-! ## Association lists

The routes use JavaScript `Map`s keyed by strings.  A `Map` preserving
insertion order is modelled as an association list to which new keys are
appended at the end. -/

def alookup {β : Type} (k : String) : List (String × β) → Option β
  | [] => none
  | p :: rest => if p.1 = k then some p.2 else alookup k rest

lemma alookup_nil {β : Type} (k : String) : alookup (β := β) k [] = none := rfl

lemma alookup_eq_none_iff {β : Type} (k : String) (m : List (String × β)) :
    alookup k m = none ↔ k ∉ m.map Prod.fst := by
  induction m with
  | nil => simp [alookup]
  | cons p rest ih =>
    rw [alookup]
    by_cases h : p.1 = k
    · simp [h]
    · simp [h, ih, Ne.symm h]

lemma alookup_append_single {β : Type} (k k1 : String) (v : β) (m : List (String × β)) :
    alookup k (m ++ [(k1, v)]) =
      match alookup k m with
      | some w => some w
      | none => if k1 = k then some v else none := by
  induction m with
  | nil => simp [alookup]
  | cons p rest ih =>
    rw [List.cons_append, alookup, alookup]
    by_cases h : p.1 = k
    · simp [h]
    · simp [h, ih]

lemma alookup_of_mem_of_nodup {β : Type} (k : String) (v : β) (m : List (String × β))
    (hmem : (k, v) ∈ m) (hnd : (m.map Prod.fst).Nodup) : alookup k m = some v := by
  induction m with
  | nil => cases hmem
  | cons p rest ih =>
    rw [alookup]
    rcases List.mem_cons.mp hmem with h | h
    · simp [← h]
    · have hk : p.1 ≠ k := by
        intro he
        have : k ∈ rest.map Prod.fst := List.mem_map.mpr ⟨(k, v), h, rfl⟩
        rw [List.map_cons, List.nodup_cons] at hnd
        exact hnd.1 (he ▸ this)
      rw [if_neg hk]
      exact ih h (by rw [List.map_cons, List.nodup_cons] at hnd; exact hnd.2)

/-! ## Deduplication

All the aggregation routes build the same dedup key
`` `${(text || '').trim().toLowerCase()}_${video_id}_${user_id || author_name}` ``
and keep only the first record per key. -/

/-- `.trim().toLowerCase()` modelled at the character level (drop
whitespace at both ends, lowercase each character). -/
def normalizeText (s : String) : String :=
  String.mk
    ((((s.data.dropWhile Char.isWhitespace).reverse.dropWhile
      Char.isWhitespace).reverse).map Char.toLower)

/-- The dedup key of a record (normalized text, video id, author identity). -/
def dedupKey (c : Comment) : String :=
  normalizeText (jsOrS c.text "") ++ "_" ++ c.videoId ++ "_" ++
    jsOrS (c.userId.getD "") c.authorName

/-- The users route's `uniqueComments` pass: keep the first record seen for
each dedup key, regardless of whether it carries a toxicity score. -/
def dedupGo (seen : List String) : List Comment → List Comment
  | [] => []
  | c :: rest =>
    if dedupKey c ∈ seen then dedupGo seen rest
    else c :: dedupGo (dedupKey c :: seen) rest

def dedupComments (records : List Comment) : List Comment := dedupGo [] records

lemma mem_of_mem_dedupGo (c : Comment) :
    ∀ (seen : List String) (l : List Comment), c ∈ dedupGo seen l → c ∈ l := by
  intro seen l
  induction l generalizing seen with
  | nil => intro h; cases h
  | cons x rest ih =>
    rw [dedupGo]
    by_cases hx : dedupKey x ∈ seen
    · rw [if_pos hx]
      intro h
      exact List.mem_cons_of_mem _ (ih _ h)
    · rw [if_neg hx]
      intro h
      rcases List.mem_cons.mp h with h | h
      · exact h ▸ List.mem_cons_self _ _
      · exact List.mem_cons_of_mem _ (ih _ h)

/-- Inserting a record whose dedup key is already covered — either by the
`seen` set or by an earlier record of the prefix `a` — does not change the
deduplicated output: the later duplicate is suppressed. -/
lemma dedupGo_drop_covered (r2 : Comment) :
    ∀ (a b : List Comment) (seen : List String),
      (dedupKey r2 ∈ seen ∨ dedupKey r2 ∈ a.map dedupKey) →
      dedupGo seen (a ++ r2 :: b) = dedupGo seen (a ++ b) := by
  intro a
  induction a with
  | nil =>
    intro b seen hcov
    rcases hcov with h | h
    · simp only [List.nil_append]
      rw [dedupGo, if_pos h]
    · simp at h
  | cons x rest ih =>
    intro b seen hcov
    simp only [List.cons_append]
    rw [dedupGo, dedupGo]
    by_cases hx : dedupKey x ∈ seen
    · rw [if_pos hx, if_pos hx]
      apply ih
      rcases hcov with h | h
      · exact Or.inl h
      · rcases List.mem_map.mp h with ⟨y, hy, hky⟩
        rcases List.mem_cons.mp hy with h1 | h1
        · exact Or.inl (by rw [← hky, h1]; exact hx)
        · exact Or.inr (List.mem_map.mpr ⟨y, h1, hky⟩)
    · rw [if_neg hx, if_neg hx]
      congr 1
      apply ih
      rcases hcov with h | h
      · exact Or.inl (List.mem_cons_of_mem _ h)
      · rcases List.mem_map.mp h with ⟨y, hy, hky⟩
        rcases List.mem_cons.mp hy with h1 | h1
        · exact Or.inl (by rw [← hky, h1]; exact List.mem_cons_self _ _)
        · exact Or.inr (List.mem_map.mpr ⟨y, h1, hky⟩)

/-! ## The channel summary route (src/unnamed/part_010)

Its dedup loop interleaves the toxicity check with the key check: a key
is registered in `uniqueComments` only together with a present score, so
an unscored first occurrence of a key does not block later duplicates. -/

/-- Score extraction of part_010:
`Array.isArray(d) ? d[0]?.toxicity_score : d?.toxicity_score`. -/
def chanScore (c : Comment) : Option ℚ :=
  match c.commentsData with
  | CommentsData.nullV => none
  | CommentsData.arr [] => none
  | CommentsData.arr (ToxEntry.enull :: _) => none
  | CommentsData.arr (ToxEntry.eobj s :: _) => s
  | CommentsData.obj s => s

/-- The part_010 fold over fetched rows: the `uniqueComments` map (key ↦
score, insertion order) together with the running `totalToxicity`. -/
def chanGo : List (String × ℚ) → ℚ → List Comment → List (String × ℚ) × ℚ
  | m, tot, [] => (m, tot)
  | m, tot, c :: rest =>
    if (alookup (dedupKey c) m).isSome then chanGo m tot rest
    else
      match chanScore c with
      | some t => chanGo (m ++ [(dedupKey c, t)]) (tot + t) rest
      | none => chanGo m tot rest

structure ChannelSummary where
  video_count : Nat
  comment_count : Nat
  average_toxicity : ℚ
  deriving DecidableEq, Repr

/-- The summary part_010 computes from the fetched rows (`videoCount` comes
from its separate count query over the `videos` table). -/
def part010Summarize (vc : Nat) (records : List Comment) : ChannelSummary :=
  if records.length = 0 then ⟨vc, 0, 0⟩
  else
    let st := chanGo [] 0 records
    ⟨vc, st.1.length, if 0 < st.1.length then st.2 / (st.1.length : ℚ) else 0⟩

/-- An HTTP-level route outcome: a JSON success payload or an error status. -/
inductive RouteResult (α : Type) where
  | success (data : α) : RouteResult α
  | failure : RouteResult α
  deriving DecidableEq, Repr

/-- The whole part_010 GET: on a page error the route returns a success
response carrying a zeroed summary (lines 116–128); otherwise it
summarizes the fetched rows. -/
def part010Response (vc : Nat) (db : List Comment) (efail : Nat → Bool) (ps : Nat) :
    RouteResult ChannelSummary :=
  match pagedScan efail db ps with
  | Except.error _ => RouteResult.success ⟨vc, 0, 0⟩
  | Except.ok (records, _) => RouteResult.success (part010Summarize vc records)

lemma chanGo_lookup (k : String) :
    ∀ (l : List Comment) (m : List (String × ℚ)) (tot : ℚ),
      alookup k (chanGo m tot l).1 =
        match alookup k m with
        | some v => some v
        | none => ((l.filter (fun c => dedupKey c == k)).filterMap chanScore).head? := by
  intro l
  induction l with
  | nil =>
    intro m tot
    rw [chanGo]
    cases alookup k m <;> simp
  | cons c rest ih =>
    intro m tot
    rw [chanGo]
    by_cases hseen : (alookup (dedupKey c) m).isSome
    · rw [if_pos hseen, ih]
      by_cases hk : dedupKey c = k
      · rcases Option.isSome_iff_exists.mp hseen with ⟨v, hv⟩
        rw [hk] at hv
        rw [hv]
      · rw [List.filter_cons_of_neg (by simp [hk])]
    · rw [if_neg hseen]
      rw [Option.not_isSome_iff_eq_none] at hseen
      cases hsc : chanScore c with
      | none =>
        rw [ih]
        by_cases hk : dedupKey c = k
        · rw [hk] at hseen
          rw [hseen]
          rw [List.filter_cons_of_pos (by simp [hk]), List.filterMap_cons_none hsc]
        · rw [List.filter_cons_of_neg (by simp [hk])]
      | some t =>
        rw [ih]
        by_cases hk : dedupKey c = k
        · rw [hk] at hseen
          have h1 : alookup k (m ++ [(dedupKey c, t)]) = some t := by
            rw [alookup_append_single, hseen, hk]
            simp
          rw [h1, hseen, List.filter_cons_of_pos (by simp [hk])]
          simp [hsc]
        · have h1 : alookup k (m ++ [(dedupKey c, t)]) = alookup k m := by
            rw [alookup_append_single]
            cases halo : alookup k m
            · simp [hk]
            · simp
          rw [h1]
          rw [List.filter_cons_of_neg (by simp [hk])]

lemma chanGo_keys_nodup :
    ∀ (l : List Comment) (m : List (String × ℚ)) (tot : ℚ),
      (m.map Prod.fst).Nodup → ((chanGo m tot l).1.map Prod.fst).Nodup := by
  intro l
  induction l with
  | nil => intro m tot h; rw [chanGo]; exact h
  | cons c rest ih =>
    intro m tot h
    rw [chanGo]
    by_cases hseen : (alookup (dedupKey c) m).isSome
    · rw [if_pos hseen]; exact ih m tot h
    · rw [if_neg hseen]
      rw [Option.not_isSome_iff_eq_none, alookup_eq_none_iff] at hseen
      cases hsc : chanScore c with
      | none => exact ih m tot h
      | some t =>
        apply ih
        rw [List.map_append]
        rw [List.nodup_append]
        refine ⟨h, List.nodup_singleton _, ?_⟩
        intro x hx hx1
        simp at hx1
        exact hseen (hx1 ▸ hx)

lemma chanGo_length_eq (records : List Comment) :
    (chanGo [] 0 records).1.length =
      (((records.filter (fun c => (chanScore c).isSome)).map dedupKey).dedup).length := by
  have hnd : ((chanGo [] 0 records).1.map Prod.fst).Nodup :=
    chanGo_keys_nodup records [] 0 (by simp)
  have hmem : ∀ k, k ∈ (chanGo [] 0 records).1.map Prod.fst ↔
      k ∈ (records.filter (fun c => (chanScore c).isSome)).map dedupKey := by
    intro k
    have h1 : k ∈ (chanGo [] 0 records).1.map Prod.fst ↔
        alookup k (chanGo [] 0 records).1 ≠ none := by
      constructor
      · intro hm hnone; exact (alookup_eq_none_iff k _).mp hnone hm
      · intro hne; by_contra hnm; exact hne ((alookup_eq_none_iff k _).mpr hnm)
    have h2 := chanGo_lookup k records [] 0
    rw [alookup_nil] at h2
    rw [h1, h2]
    constructor
    · intro hne
      have hnil : (records.filter (fun c => dedupKey c == k)).filterMap chanScore ≠ [] := by
        intro hcon
        exact hne (by rw [hcon]; rfl)
      obtain ⟨t, ht⟩ := List.exists_mem_of_ne_nil _ hnil
      obtain ⟨a, ha, hat⟩ := List.mem_filterMap.mp ht
      obtain ⟨har, hak⟩ := List.mem_filter.mp ha
      refine List.mem_map.mpr ⟨a, List.mem_filter.mpr ⟨har, ?_⟩, by
        exact (by simpa using hak : dedupKey a = k)⟩
      rw [hat]; rfl
    · intro hk
      obtain ⟨a, ha, hak⟩ := List.mem_map.mp hk
      obtain ⟨har, hsome⟩ := List.mem_filter.mp ha
      obtain ⟨t, ht⟩ := Option.isSome_iff_exists.mp (by simpa using hsome)
      have hmem2 : t ∈ (records.filter (fun c => dedupKey c == k)).filterMap chanScore :=
        List.mem_filterMap.mpr ⟨a, List.mem_filter.mpr ⟨har, by simp [hak]⟩, ht⟩
      intro hnone
      rw [List.head?_eq_none_iff] at hnone
      rw [hnone] at hmem2
      cases hmem2
  have hndR : (((records.filter (fun c => (chanScore c).isSome)).map dedupKey).dedup).Nodup :=
    List.nodup_dedup _
  have hfin : ((chanGo [] 0 records).1.map Prod.fst).toFinset =
      (((records.filter (fun c => (chanScore c).isSome)).map dedupKey).dedup).toFinset := by
    apply Finset.ext
    intro k
    rw [List.mem_toFinset, List.mem_toFinset, List.mem_dedup]
    exact hmem k
  have hlen1 : (chanGo [] 0 records).1.length =
      ((chanGo [] 0 records).1.map Prod.fst).length := (List.length_map _ _).symm
  rw [hlen1, ← List.toFinset_card_of_nodup hnd, ← List.toFinset_card_of_nodup hndR, hfin]

/-- C1 (amended): In the channel-summary route (part_010) the retained
`uniqueComments` map has pairwise-distinct dedup keys; the entry stored
under a key is the score of the *first score-bearing* record in scan order
with that key (an unscored first occurrence does not register the key);
and the summary's `comment_count` equals the number of distinct dedup keys
among score-bearing records — the size of the deduplicated set, not the
raw fetched count.  (In the complete-analysis route, part_007, no
deduplication happens at all; see the counterexample.) -/
theorem part010_dedup_characterization (records : List Comment) (vc : Nat) :
    (((chanGo [] 0 records).1.map Prod.fst).Nodup) ∧
    (∀ k, alookup k (chanGo [] 0 records).1 =
      ((records.filter (fun c => dedupKey c == k)).filterMap chanScore).head?) ∧
    ((part010Summarize vc records).comment_count =
      (((records.filter (fun c => (chanScore c).isSome)).map dedupKey).dedup).length) := by
  refine ⟨chanGo_keys_nodup records [] 0 (by simp), ?_, ?_⟩
  · intro k
    have h2 := chanGo_lookup k records [] 0
    rw [alookup_nil] at h2
    exact h2
  · rw [part010Summarize]
    by_cases hrec : records.length = 0
    · rw [if_pos hrec]
      have : records = [] := List.length_eq_zero.mp hrec
      subst this
      rfl
    · rw [if_neg hrec]
      exact chanGo_length_eq records

/-! ## The complete-analysis route (src/unnamed/part_007)

This route computes its channel `comment_count` as `validComments.length`
over the raw fetched rows: it never deduplicates. -/

/-- `validComments` membership test of part_007 (lines 163–173).  Note that
a present-but-`null` score passes (`null !== undefined`). -/
def part007IsValid (c : Comment) : Bool :=
  match c.commentsData with
  | CommentsData.nullV => false
  | CommentsData.arr [] => false
  | CommentsData.arr (ToxEntry.enull :: _) => false
  | CommentsData.arr (ToxEntry.eobj _ :: _) => true
  | CommentsData.obj _ => true

/-- `getToxicityScore` of part_007; a `null` score coerces to `0` when it is
later added.  The `arr []`/`enull` cases would throw in JS but are
unreachable: the route only applies this to `validComments`. -/
def getToxicityScore7 (c : Comment) : ℚ :=
  match c.commentsData with
  | CommentsData.nullV => 0
  | CommentsData.arr [] => 0
  | CommentsData.arr (ToxEntry.enull :: _) => 0
  | CommentsData.arr (ToxEntry.eobj s :: _) => s.getD 0
  | CommentsData.obj s => s.getD 0

def validComments7 (records : List Comment) : List Comment :=
  records.filter part007IsValid

/-- The channel block of the part_007 response: `video_count` is the number
of distinct video ids among the *fetched* rows, `comment_count` is the
length of `validComments` (no deduplication), and the average is the mean
score over `validComments`. -/
def part007Channel (records : List Comment) : ChannelSummary :=
  ⟨((records.map (fun c => c.videoId)).dedup).length,
   (validComments7 records).length,
   if 0 < (validComments7 records).length then
     ((validComments7 records).foldl (fun acc c => acc + getToxicityScore7 c) 0) /
       ((validComments7 records).length : ℚ)
   else 0⟩

/-- A scored row duplicated verbatim in storage. -/
def dupRow : Comment :=
  ⟨"7", "Bad!", "v1", some "u1", "Alice", 5, 0,
    CommentsData.arr [ToxEntry.eobj (some (9/10))]⟩

/-- Counterexample to C1: the complete-analysis route (part_007) reports
`comment_count = 2` for a fetch consisting of the same row twice, while the
deduplicated set (one record per dedup key, first in scan order) has size 1
— its channel summary counts the raw score-filtered fetch, not the
deduplicated set. -/
theorem part007_counts_duplicates :
    (part007Channel [dupRow, dupRow]).comment_count = 2 ∧
    (dedupComments [dupRow, dupRow]).length = 1 := by
  constructor
  · rfl
  · decide

/-! ## Error propagation of the paged scan (claim C2) -/

lemma pagedScanGo_ok_eq (efail : Nat → Bool) (db : List Comment) (ps : Nat)
    (hps : 0 < ps) :
    ∀ fuel offset acc n l m,
      pagedScanGo efail db ps fuel offset acc n = Except.ok (l, m) →
      l = acc ++ db.drop offset := by
  intro fuel
  induction fuel with
  | zero => intro offset acc n l m h; simp [pagedScanGo] at h
  | succ fuel ih =>
    intro offset acc n l m h
    rw [pagedScanGo] at h
    by_cases hf : efail offset
    · rw [if_pos hf] at h; cases h
    · rw [if_neg hf] at h
      by_cases hfull : 0 < ps ∧ ((db.drop offset).take ps).length = ps
      · rw [if_pos hfull] at h
        have := ih (offset + ps) (acc ++ (db.drop offset).take ps) (n + 1) l m h
        rw [this, List.append_assoc]
        congr 1
        have hdd : db.drop (offset + ps) = (db.drop offset).drop ps := by
          rw [List.drop_drop, Nat.add_comm]
        rw [hdd, List.take_append_drop]
      · rw [if_neg hfull] at h
        have hshort : ((db.drop offset).take ps).length ≠ ps := by
          intro hc; exact hfull ⟨hps, hc⟩
        have htake : (db.drop offset).take ps = db.drop offset := by
          apply List.take_of_length_le
          have h1 : ((db.drop offset).take ps).length = min ps (db.drop offset).length := by
            simp [List.length_take]
          rcases Nat.le_total ps (db.drop offset).length with hle | hle
          · exact absurd (by rw [h1, Nat.min_eq_left hle]) hshort
          · exact hle
        rw [← htake]
        cases h
        rfl

/-- C2 (amended): In the author-rankings route (and the complete-analysis
route part_007) a storage error on any issued page request is thrown and
aborts the request (`Except.error`), and a successful scan always carries
the complete record set — no partial aggregation input is ever surfaced as
success.  The channel-summary route part_010, by contrast, swallows the
page error and returns a success response with a zero-filled summary (see
the counterexample). -/
theorem pagedScan_error_propagation (db : List Comment) (efail : Nat → Bool)
    (ps : Nat) (hps : 0 < ps) :
    (∀ l n, pagedScan efail db ps = Except.ok (l, n) → l = db) ∧
    (efail 0 = true → pagedScan efail db ps = Except.error ()) := by
  constructor
  · intro l n h
    have := pagedScanGo_ok_eq efail db ps hps (db.length + 1) 0 [] 0 l n h
    simpa using this
  · intro h
    rw [pagedScan, pagedScanGo, h]
    simp

/-- A storage collaborator for which every page request fails. -/
def allFail : Nat → Bool := fun _ => true

/-- A scored row whose summary contribution vanishes from the zero-filled
error response of part_010. -/
def c2Row : Comment :=
  ⟨"9", "mean comment", "v1", some "u1", "Alice", 3, 0,
    CommentsData.arr [ToxEntry.eobj (some (1/2))]⟩

/-- Counterexample to C2: when a page request fails, the channel-summary
route (part_010, lines 116–128) does not propagate the error — it returns a
*success* response with a zero-filled summary, although the same store
without the failure yields a non-empty summary. -/
theorem part010_success_after_page_error :
    part010Response 1 [c2Row] allFail 1000 = RouteResult.success ⟨1, 0, 0⟩ ∧
    part010Response 1 [c2Row] noFailure 1000 =
      RouteResult.success ⟨1, 1, 1/2⟩ := by
  constructor
  · rfl
  · norm_num [part010Response, pagedScan, pagedScanGo, noFailure,
      part010Summarize, chanGo, chanScore, alookup, c2Row]

/-- Witness for C2 (amended): on a concrete 2-row store with no failures the
scan succeeds and the success payload is the complete store; with a failing
first page it errors. -/
theorem pagedScan_error_propagation_witness :
    0 < 1000 ∧ pagedScan allFail scenarioDb 1000 = Except.error () :=
  ⟨by decide, (pagedScan_error_propagation scenarioDb allFail 1000 (by decide)).2 (by decide)⟩

/-! ## The author-rankings route (app/api/channel/[id]/users/route.ts)

Pipeline: Map-based dedup over all fetched rows (score-agnostic), then a
per-author grouping loop that skips records without a toxicity score,
then per-user statistics, then ranked views.  The author key falls back
to `` `Anonymous_${Date.now()}_${Math.random()}` `` when both `user_id`
and `author_name` are falsy; the environment `env` supplies the string
that fallback would produce at iteration `i` of the grouping loop. -/

/-- Score extraction of the users route (lines 147–173): `null`
`comments_data`, an empty array, a `null` element, or a `null` score all
cause the record to be skipped. -/
def usersScore (c : Comment) : Option ℚ :=
  match c.commentsData with
  | CommentsData.nullV => none
  | CommentsData.arr [] => none
  | CommentsData.arr (ToxEntry.enull :: _) => none
  | CommentsData.arr (ToxEntry.eobj s :: _) => s
  | CommentsData.obj s => s

/-- `comment.user_id || comment.author_name || <anonymous fallback>`. -/
def authorKeyOf (env : Nat → String) (i : Nat) (c : Comment) : String :=
  jsOrS (c.userId.getD "") (jsOrS c.authorName (env i))

/-- The per-comment entry pushed into a user's bucket
(`{text: comment.text || '', toxicity_score, like_count: comment.like_count || 0}`). -/
structure CEntry where
  text : String
  score : ℚ
  like : Int
  deriving DecidableEq, Repr

def toCEntry (c : Comment) (t : ℚ) : CEntry :=
  ⟨jsOrS c.text "", t, jsOrInt c.likeCount 0⟩

/-- A value of the `userStatsMap`: identity fields from the first record
seen for the key, plus the accumulated comment entries. -/
structure UserAcc where
  user_id : Option String
  author_name : String
  comments : List CEntry
  deriving DecidableEq, Repr

/-- One `userStatsMap` update: create the bucket on first sight of the key
(identity from this record, `author_name || 'Anonymous'`), then push the
entry at the end. -/
def pushEntry (k : String) (c : Comment) (t : ℚ) :
    List (String × UserAcc) → List (String × UserAcc)
  | [] => [(k, ⟨c.userId, jsOrS c.authorName "Anonymous", [toCEntry c t]⟩)]
  | (k1, a) :: rest =>
    if k1 = k then (k1, ⟨a.user_id, a.author_name, a.comments ++ [toCEntry c t]⟩) :: rest
    else (k1, a) :: pushEntry k c t rest

/-- One iteration of the grouping `forEach`: records without a score are
skipped before the author key is ever computed. -/
def groupStep (env : Nat → String) (i : Nat) (m : List (String × UserAcc))
    (c : Comment) : List (String × UserAcc) :=
  match usersScore c with
  | none => m
  | some t => pushEntry (authorKeyOf env i c) c t m

def buildGroupsGo (env : Nat → String) :
    Nat → List (String × UserAcc) → List Comment → List (String × UserAcc)
  | _, m, [] => m
  | i, m, c :: rest => buildGroupsGo env (i + 1) (groupStep env i m c) rest

/-- The `userStatsMap` of the users route: grouping runs over the
*deduplicated* records. -/
def buildGroups (env : Nat → String) (records : List Comment) :
    List (String × UserAcc) :=
  buildGroupsGo env 0 [] (dedupComments records)

structure UserStats where
  user_id : Option String
  author_name : String
  comment_count : Nat
  average_toxicity : ℚ
  max_toxicity : ℚ
  most_toxic_comment : String
  total_likes : Int
  deriving DecidableEq, Repr

/-- Final per-user statistics (lines 205–224).  The `[]` branch mirrors no
reachable code path — buckets are created non-empty — and is given
degenerate values. -/
def statsOfAcc (a : UserAcc) : UserStats :=
  match a.comments with
  | [] => ⟨a.user_id, a.author_name, 0, 0, 0, "", 0⟩
  | e :: es =>
    ⟨a.user_id, a.author_name,
     (e :: es).length,
     (((e :: es).map CEntry.score).foldl (fun s t => s + t) 0) / ((e :: es).length : ℚ),
     (es.map CEntry.score).foldl (fun s t => max s t) e.score,
     (es.foldl (fun mx cur => if mx.score < cur.score then cur else mx) e).text,
     (e :: es).foldl (fun s c2 => s + c2.like) 0⟩

def userStatsKeyed (env : Nat → String) (records : List Comment) :
    List (String × UserStats) :=
  (buildGroups env records).map (fun p => (p.1, statsOfAcc p.2))

def userStatsList (env : Nat → String) (records : List Comment) : List UserStats :=
  (userStatsKeyed env records).map Prod.snd

/-- Stable descending insertion by a sort key: models JavaScript's stable
`Array.prototype.sort` with comparator `(a, b) => key(b) - key(a)` (ties
keep first-appearance order). -/
def insertDescBy {α β : Type} [LinearOrder β] (key : α → β) (x : α) :
    List α → List α
  | [] => [x]
  | y :: ys => if key x < key y then y :: insertDescBy key x ys else x :: y :: ys

def sortDescBy {α β : Type} [LinearOrder β] (key : α → β) : List α → List α
  | [] => []
  | x :: xs => insertDescBy key x (sortDescBy key xs)

structure UsersPayload where
  most_active : List UserStats
  most_toxic : List UserStats
  most_liked : List UserStats
  total_users : Nat
  min_comments_threshold : Int
  deriving DecidableEq, Repr

def keyActive (u : UserStats) : Nat := u.comment_count
def keyToxic (u : UserStats) : ℚ := u.average_toxicity
def keyLiked (u : UserStats) : Int := u.total_likes

/-- The response data of the users route once statistics exist: the
`get_all` branch sorts the unfiltered stats three ways and reports
threshold 1; the default branch filters by `minComments`, sorts, and takes
the top 10 of each ranking. -/
def usersPayloadOf (stats : List UserStats) (minC : Int) (getAll : Bool) :
    UsersPayload :=
  let significant := stats.filter (fun u => minC ≤ (u.comment_count : Int))
  if getAll then
    ⟨sortDescBy keyActive stats, sortDescBy keyToxic stats, sortDescBy keyLiked stats,
     stats.length, 1⟩
  else
    ⟨(sortDescBy keyActive significant).take 10,
     (sortDescBy keyToxic significant).take 10,
     (sortDescBy keyLiked significant).take 10,
     significant.length, minC⟩

/-- The whole users-route GET on a successfully fetched record list: an
empty fetch short-circuits to an empty payload (lines 103–114). -/
def usersResponse (records : List Comment) (env : Nat → String) (minC : Int)
    (getAll : Bool) : RouteResult UsersPayload :=
  if records.length = 0 then RouteResult.success ⟨[], [], [], 0, minC⟩
  else RouteResult.success (usersPayloadOf (userStatsList env records) minC getAll)

/-! ## Correctness of the per-author aggregation (claims C5, C6) -/

/-- The comment entries that the grouping loop starting at iteration `i`
contributes to author key `k`: one entry per deduplicated, score-bearing
record whose author key is `k`. -/
def groupEntries (env : Nat → String) : Nat → List Comment → String → List CEntry
  | _, [], _ => []
  | i, c :: rest, k =>
    (match usersScore c with
     | none => []
     | some t => if authorKeyOf env i c = k then [toCEntry c t] else []) ++
      groupEntries env (i + 1) rest k

/-- The bucket contents stored under key `k`. -/
def commentsAt (m : List (String × UserAcc)) (k : String) : List CEntry :=
  match alookup k m with
  | none => []
  | some a => a.comments

lemma commentsAt_cons_eq (k1 : String) (a : UserAcc) (m : List (String × UserAcc)) :
    commentsAt ((k1, a) :: m) k1 = a.comments := by
  simp [commentsAt, alookup]

lemma commentsAt_cons_ne (k1 k2 : String) (a : UserAcc) (m : List (String × UserAcc))
    (h : k1 ≠ k2) : commentsAt ((k1, a) :: m) k2 = commentsAt m k2 := by
  simp [commentsAt, alookup, h]

lemma commentsAt_pushEntry (k k2 : String) (c : Comment) (t : ℚ) :
    ∀ m : List (String × UserAcc),
      commentsAt (pushEntry k c t m) k2 =
        commentsAt m k2 ++ (if k = k2 then [toCEntry c t] else []) := by
  intro m
  induction m with
  | nil =>
    rw [pushEntry]
    by_cases hk : k = k2
    · subst hk; simp [commentsAt, alookup]
    · rw [if_neg hk]
      simp [commentsAt, alookup, hk]
  | cons p rest ih =>
    obtain ⟨k1, a⟩ := p
    rw [pushEntry]
    by_cases h1 : k1 = k
    · rw [if_pos h1]
      by_cases hk2 : k1 = k2
      · subst hk2
        rw [commentsAt_cons_eq, commentsAt_cons_eq, if_pos h1.symm]
      · have hkk2 : k ≠ k2 := fun h => hk2 (h1.trans h)
        rw [commentsAt_cons_ne _ _ _ _ hk2, commentsAt_cons_ne _ _ _ _ hk2, if_neg hkk2]
        simp
    · rw [if_neg h1]
      by_cases hk2 : k1 = k2
      · subst hk2
        have hkk2 : k ≠ k1 := fun h => h1 h.symm
        rw [commentsAt_cons_eq, commentsAt_cons_eq, if_neg hkk2]
        simp
      · rw [commentsAt_cons_ne _ _ _ _ hk2, commentsAt_cons_ne _ _ _ _ hk2]
        exact ih

lemma commentsAt_buildGroupsGo (env : Nat → String) (k : String) :
    ∀ (l : List Comment) (i : Nat) (m : List (String × UserAcc)),
      commentsAt (buildGroupsGo env i m l) k =
        commentsAt m k ++ groupEntries env i l k := by
  intro l
  induction l with
  | nil => intro i m; simp [buildGroupsGo, groupEntries]
  | cons c rest ih =>
    intro i m
    rw [buildGroupsGo, groupEntries, ih, groupStep]
    cases hsc : usersScore c with
    | none => simp
    | some t =>
      rw [commentsAt_pushEntry, List.append_assoc]

lemma pushEntry_keys (k : String) (c : Comment) (t : ℚ) :
    ∀ m : List (String × UserAcc),
      (pushEntry k c t m).map Prod.fst =
        if k ∈ m.map Prod.fst then m.map Prod.fst else m.map Prod.fst ++ [k] := by
  intro m
  induction m with
  | nil => simp [pushEntry]
  | cons p rest ih =>
    obtain ⟨k1, a⟩ := p
    rw [pushEntry]
    by_cases h1 : k1 = k
    · subst h1
      simp
    · rw [if_neg h1]
      simp only [List.map_cons, List.mem_cons]
      rw [ih]
      by_cases hk : k ∈ rest.map Prod.fst
      · rw [if_pos hk, if_pos (Or.inr hk)]
      · rw [if_neg hk, if_neg (by rintro (h | h); exact h1 h.symm; exact hk h)]
        simp

lemma buildGroupsGo_keys_nodup (env : Nat → String) :
    ∀ (l : List Comment) (i : Nat) (m : List (String × UserAcc)),
      (m.map Prod.fst).Nodup → ((buildGroupsGo env i m l).map Prod.fst).Nodup := by
  intro l
  induction l with
  | nil => intro i m h; exact h
  | cons c rest ih =>
    intro i m h
    rw [buildGroupsGo]
    apply ih
    rw [groupStep]
    cases usersScore c with
    | none => exact h
    | some t =>
      rw [pushEntry_keys]
      by_cases hk : authorKeyOf env i c ∈ m.map Prod.fst
      · rw [if_pos hk]; exact h
      · rw [if_neg hk]
        rw [List.nodup_append]
        exact ⟨h, List.nodup_singleton _, by
          intro x hx hx1
          simp at hx1
          exact hk (hx1 ▸ hx)⟩

lemma pushEntry_nonempty (k : String) (c : Comment) (t : ℚ) :
    ∀ m : List (String × UserAcc),
      (∀ p ∈ m, p.2.comments ≠ []) →
      ∀ p ∈ pushEntry k c t m, p.2.comments ≠ [] := by
  intro m
  induction m with
  | nil =>
    intro _ p hp
    rw [pushEntry] at hp
    rcases List.mem_singleton.mp hp with h
    rw [h]
    simp
  | cons q rest ih =>
    obtain ⟨k1, a⟩ := q
    intro hall p hp
    rw [pushEntry] at hp
    by_cases h1 : k1 = k
    · rw [if_pos h1] at hp
      rcases List.mem_cons.mp hp with h | h
      · rw [h]; simp
      · exact hall p (List.mem_cons_of_mem _ h)
    · rw [if_neg h1] at hp
      rcases List.mem_cons.mp hp with h | h
      · rw [h]; exact hall (k1, a) (List.mem_cons_self _ _)
      · exact ih (fun q hq => hall q (List.mem_cons_of_mem _ hq)) p h

lemma buildGroupsGo_nonempty (env : Nat → String) :
    ∀ (l : List Comment) (i : Nat) (m : List (String × UserAcc)),
      (∀ p ∈ m, p.2.comments ≠ []) →
      ∀ p ∈ buildGroupsGo env i m l, p.2.comments ≠ [] := by
  intro l
  induction l with
  | nil => intro i m h; exact h
  | cons c rest ih =>
    intro i m h
    rw [buildGroupsGo]
    apply ih
    rw [groupStep]
    cases usersScore c with
    | none => exact h
    | some t => exact pushEntry_nonempty _ _ _ m h

lemma foldl_add_rat (l : List ℚ) : ∀ x : ℚ, l.foldl (fun s t => s + t) x = x + l.sum := by
  induction l with
  | nil => intro x; simp
  | cons a rest ih =>
    intro x
    rw [List.foldl_cons, ih, List.sum_cons]
    ring

lemma statsOfAcc_count (a : UserAcc) :
    (statsOfAcc a).comment_count = a.comments.length := by
  rw [statsOfAcc]
  cases a.comments with
  | nil => rfl
  | cons e es => rfl

lemma statsOfAcc_avg (a : UserAcc) (h : a.comments ≠ []) :
    (statsOfAcc a).average_toxicity =
      (a.comments.map CEntry.score).sum / (a.comments.length : ℚ) := by
  rw [statsOfAcc]
  cases hc : a.comments with
  | nil => exact absurd hc h
  | cons e es =>
    simp only
    rw [foldl_add_rat, zero_add]

/-- C5: For every group produced by the users-route aggregation,
`average_toxicity` equals the sum of the group's toxicity scores divided by
its `comment_count`, and `comment_count` equals the number of deduplicated,
score-bearing records whose author key maps to that group. -/
theorem users_aggregation_correct (records : List Comment) (env : Nat → String)
    (k : String) (s : UserStats) (h : (k, s) ∈ userStatsKeyed env records) :
    s.comment_count = (groupEntries env 0 (dedupComments records) k).length ∧
    s.average_toxicity =
      ((groupEntries env 0 (dedupComments records) k).map CEntry.score).sum /
        ((groupEntries env 0 (dedupComments records) k).length : ℚ) := by
  rcases List.mem_map.mp h with ⟨⟨k0, a⟩, hmem, heq⟩
  have hk0 : k0 = k := congrArg Prod.fst heq
  have hs : statsOfAcc a = s := congrArg Prod.snd heq
  have hnd : ((buildGroups env records).map Prod.fst).Nodup :=
    buildGroupsGo_keys_nodup env (dedupComments records) 0 [] (by simp)
  have halo : alookup k (buildGroups env records) = some a :=
    alookup_of_mem_of_nodup k a _ (hk0 ▸ hmem) hnd
  have hca : commentsAt (buildGroups env records) k = a.comments := by
    rw [commentsAt, halo]
  have hga := commentsAt_buildGroupsGo env k (dedupComments records) 0 []
  have hcomm : a.comments = groupEntries env 0 (dedupComments records) k := by
    rw [← hca]
    rw [buildGroups]
    rw [hga]
    rfl
  have hne : a.comments ≠ [] :=
    buildGroupsGo_nonempty env (dedupComments records) 0 [] (by simp) (k0, a) hmem
  constructor
  · rw [← hs, statsOfAcc_count, hcomm]
  · rw [← hs, statsOfAcc_avg a hne, hcomm]

/-- A single scored row by a stable author, for witnesses. -/
def wRow : Comment :=
  ⟨"w1", "hi", "v", some "u1", "Alice", 2, 0,
    CommentsData.arr [ToxEntry.eobj (some (1/2))]⟩

def wEnv : Nat → String := fun _ => "AnonymousW"

def wStats : UserStats := ⟨some "u1", "Alice", 1, 1/2, 1/2, "hi", 2⟩

/-- Witness for C5 at a concrete one-comment store. -/
theorem users_aggregation_correct_witness :
    (("u1", wStats) ∈ userStatsKeyed wEnv [wRow]) ∧
    (wStats.comment_count = (groupEntries wEnv 0 (dedupComments [wRow]) "u1").length ∧
     wStats.average_toxicity =
       ((groupEntries wEnv 0 (dedupComments [wRow]) "u1").map CEntry.score).sum /
         ((groupEntries wEnv 0 (dedupComments [wRow]) "u1").length : ℚ)) := by
  have hm : ("u1", wStats) ∈ userStatsKeyed wEnv [wRow] := by
    norm_num [userStatsKeyed, buildGroups, dedupComments, dedupGo, buildGroupsGo,
      groupStep, usersScore, wRow, wEnv, authorKeyOf, jsOrS, jsOrInt, pushEntry,
      statsOfAcc, toCEntry, wStats]
    simp
  exact ⟨hm, users_aggregation_correct [wRow] wEnv "u1" wStats hm⟩

/-- Total number of comment entries across all buckets. -/
def totalComments (m : List (String × UserAcc)) : Nat :=
  (m.map (fun p => p.2.comments.length)).sum

lemma totalComments_pushEntry (k : String) (c : Comment) (t : ℚ) :
    ∀ m : List (String × UserAcc),
      totalComments (pushEntry k c t m) = totalComments m + 1 := by
  intro m
  induction m with
  | nil => simp [pushEntry, totalComments]
  | cons p rest ih =>
    obtain ⟨k1, a⟩ := p
    rw [pushEntry]
    by_cases h1 : k1 = k
    · rw [if_pos h1]
      simp [totalComments]
      omega
    · rw [if_neg h1]
      simp [totalComments] at ih ⊢
      omega

lemma totalComments_buildGroupsGo (env : Nat → String) :
    ∀ (l : List Comment) (i : Nat) (m : List (String × UserAcc)),
      totalComments (buildGroupsGo env i m l) =
        totalComments m + (l.filter (fun c => (usersScore c).isSome)).length := by
  intro l
  induction l with
  | nil => intro i m; simp [buildGroupsGo]
  | cons c rest ih =>
    intro i m
    rw [buildGroupsGo, ih, groupStep]
    cases hsc : usersScore c with
    | none => simp [List.filter_cons, hsc]
    | some t =>
      rw [totalComments_pushEntry]
      simp [List.filter_cons, hsc]
      omega

/-- C6 (amended): In the users route, deduplication runs strictly before
the score filter.  A record `r1` whose toxicity score is absent still has
its dedup key computed and registered, so a later record `r2` with the same
dedup key is suppressed — removing `r2` does not change the deduplicated
output at all.  And the score filter runs only afterwards: summed over all
groups, the group counts equal the number of *score-bearing* deduplicated
records, so a score-less record contributes to no group's count.  (In the
channel-summary route part_010 the score check is interleaved with the key
check instead; see the counterexample.) -/
theorem users_dedup_before_score_filter (env : Nat → String)
    (l1 l2 l3 : List Comment) (r1 r2 : Comment) (records : List Comment)
    (h1 : usersScore r1 = none) (h2 : dedupKey r2 = dedupKey r1) :
    dedupComments ((l1 ++ r1 :: l2) ++ r2 :: l3) =
      dedupComments ((l1 ++ r1 :: l2) ++ l3) ∧
    ((userStatsList env records).map UserStats.comment_count).sum =
      ((dedupComments records).filter (fun c => (usersScore c).isSome)).length := by
  constructor
  · rw [dedupComments, dedupComments]
    apply dedupGo_drop_covered
    refine Or.inr (List.mem_map.mpr ⟨r1, ?_, h2.symm⟩)
    simp
  · have hmap : (userStatsList env records).map UserStats.comment_count =
        (buildGroups env records).map (fun p => p.2.comments.length) := by
      rw [userStatsList, userStatsKeyed, List.map_map, List.map_map]
      apply List.map_congr_left
      intro p _
      exact statsOfAcc_count p.2
    rw [hmap]
    have := totalComments_buildGroupsGo env (dedupComments records) 0 []
    rw [buildGroups]
    rw [totalComments] at this
    rw [this]
    simp [totalComments]

/-- A record with no toxicity annotation at all. -/
def c6NoScore : Comment :=
  ⟨"n1", "dup", "v", some "u", "A", 0, 0, CommentsData.nullV⟩

/-- A scored record with the same dedup key as `c6NoScore`. -/
def c6Scored : Comment :=
  ⟨"n2", "dup", "v", some "u", "A", 0, 0,
    CommentsData.arr [ToxEntry.eobj (some (3/4))]⟩

/-- Witness for C6 at a concrete pair of duplicate rows, one unscored. -/
theorem users_dedup_before_score_filter_witness :
    (usersScore c6NoScore = none ∧ dedupKey c6Scored = dedupKey c6NoScore) ∧
    (dedupComments (([] ++ c6NoScore :: []) ++ c6Scored :: []) =
       dedupComments (([] ++ c6NoScore :: []) ++ []) ∧
     ((userStatsList wEnv [c6NoScore, c6Scored]).map UserStats.comment_count).sum =
       ((dedupComments [c6NoScore, c6Scored]).filter
         (fun c => (usersScore c).isSome)).length) :=
  ⟨⟨rfl, by decide⟩,
   users_dedup_before_score_filter wEnv [] [] [] c6NoScore c6Scored
     [c6NoScore, c6Scored] rfl (by decide)⟩

/-- The pipeline the claim describes, stated from the claim's words:
dedup strictly first (one record per key, first in scan order), the score
filter strictly afterwards; `comment_count` is the number of surviving
score-bearing records. -/
def specDedupThenFilterCount (records : List Comment) : Nat :=
  ((dedupComments records).filter (fun c => (chanScore c).isSome)).length

/-- Counterexample to C6: in the channel-summary route (part_010) the score
check is interleaved inside the dedup loop, so the unscored first record
does *not* suppress its later scored duplicate: the route counts 1 comment,
while dedup-before-filter semantics — as the claim states — would count 0
(the unscored representative survives dedup and is then filtered out). -/
theorem part010_score_check_interleaved :
    (part010Summarize 1 [c6NoScore, c6Scored]).comment_count = 1 ∧
    specDedupThenFilterCount [c6NoScore, c6Scored] = 0 := by
  constructor
  · decide
  · decide

/-! ## Ranking consistency (claim C7)

JavaScript's `Array.prototype.sort` is stable, so filtering before a
stable sort gives the same result as filtering after it; consequently the
`get_all` rankings, filtered client-side by the same minimum-support
threshold and truncated, coincide with the server's top-10 rankings. -/

lemma mem_insertDescBy {α β : Type} [LinearOrder β] (key : α → β) (x z : α) :
    ∀ l : List α, z ∈ insertDescBy key x l ↔ z = x ∨ z ∈ l := by
  intro l
  induction l with
  | nil => simp [insertDescBy]
  | cons y ys ih =>
    rw [insertDescBy]
    by_cases h : key x < key y
    · rw [if_pos h]
      rw [List.mem_cons, ih, List.mem_cons]
      tauto
    · rw [if_neg h]
      simp

lemma pairwise_insertDescBy {α β : Type} [LinearOrder β] (key : α → β) (x : α) :
    ∀ l : List α, l.Pairwise (fun a b => key b ≤ key a) →
      (insertDescBy key x l).Pairwise (fun a b => key b ≤ key a) := by
  intro l
  induction l with
  | nil => intro _; simp [insertDescBy]
  | cons y ys ih =>
    intro hp
    rw [List.pairwise_cons] at hp
    rw [insertDescBy]
    by_cases h : key x < key y
    · rw [if_pos h]
      rw [List.pairwise_cons]
      constructor
      · intro z hz
        rcases (mem_insertDescBy key x z ys).mp hz with h1 | h1
        · exact h1 ▸ le_of_lt h
        · exact hp.1 z h1
      · exact ih hp.2
    · rw [if_neg h]
      rw [List.pairwise_cons]
      constructor
      · intro z hz
        rcases List.mem_cons.mp hz with h1 | h1
        · exact h1 ▸ le_of_not_lt h
        · exact le_trans (hp.1 z h1) (le_of_not_lt h)
      · exact List.pairwise_cons.mpr hp

lemma pairwise_sortDescBy {α β : Type} [LinearOrder β] (key : α → β) :
    ∀ l : List α, (sortDescBy key l).Pairwise (fun a b => key b ≤ key a) := by
  intro l
  induction l with
  | nil => simp [sortDescBy]
  | cons x xs ih => exact pairwise_insertDescBy key x _ ih

lemma insertDescBy_of_head_le {α β : Type} [LinearOrder β] (key : α → β) (x : α) :
    ∀ l : List α, (∀ z ∈ l, key z ≤ key x) → insertDescBy key x l = x :: l := by
  intro l h
  cases l with
  | nil => rfl
  | cons y ys =>
    rw [insertDescBy, if_neg (not_lt_of_le (h y (List.mem_cons_self _ _)))]

lemma filter_insertDescBy {α β : Type} [LinearOrder β] (key : α → β)
    (p : α → Bool) (x : α) :
    ∀ l : List α, l.Pairwise (fun a b => key b ≤ key a) →
      (insertDescBy key x l).filter p =
        if p x then insertDescBy key x (l.filter p) else l.filter p := by
  intro l
  induction l with
  | nil =>
    intro _
    rw [insertDescBy]
    cases hp : p x <;> simp [List.filter, hp, insertDescBy]
  | cons y ys ih =>
    intro hs
    rw [List.pairwise_cons] at hs
    rw [insertDescBy]
    by_cases h : key x < key y
    · rw [if_pos h]
      rw [List.filter_cons, List.filter_cons]
      cases hy : p y
      · simp only [Bool.false_eq_true, if_false]
        exact ih hs.2
      · simp only [if_true]
        rw [ih hs.2]
        cases hp : p x
        · simp
        · simp only [if_true]
          rw [insertDescBy, if_pos h]
    · rw [if_neg h]
      have hbound : ∀ z ∈ (y :: ys).filter p, key z ≤ key x := by
        intro z hz
        rcases List.mem_cons.mp (List.mem_of_mem_filter hz) with h1 | h1
        · exact h1 ▸ le_of_not_lt h
        · exact le_trans (hs.1 z h1) (le_of_not_lt h)
      rw [List.filter_cons]
      cases hp : p x
      · simp only [Bool.false_eq_true, if_false]
      · simp only [if_true]
        rw [insertDescBy_of_head_le key x _ hbound]

lemma filter_sortDescBy {α β : Type} [LinearOrder β] (key : α → β) (p : α → Bool) :
    ∀ l : List α, (sortDescBy key l).filter p = sortDescBy key (l.filter p) := by
  intro l
  induction l with
  | nil => rfl
  | cons x xs ih =>
    rw [sortDescBy, filter_insertDescBy key p x _ (pairwise_sortDescBy key _), ih,
      List.filter_cons]
    cases hp : p x
    · simp
    · simp only [if_true]
      rw [sortDescBy]

/-- C7: For the same input statistics and the same minimum-support
threshold, the `get_all` rankings — filtered client-side to entries with
`comment_count` at least the threshold and truncated to the server's
`K = 10` — coincide with the server-computed top-10 rankings, for each of
the three comparators (comment count, average toxicity, total likes). -/
theorem allMode_topK_consistent (stats : List UserStats) (minC : Int) :
    (((usersPayloadOf stats minC true).most_active.filter
        (fun u => minC ≤ (u.comment_count : Int))).take 10 =
      (usersPayloadOf stats minC false).most_active) ∧
    (((usersPayloadOf stats minC true).most_toxic.filter
        (fun u => minC ≤ (u.comment_count : Int))).take 10 =
      (usersPayloadOf stats minC false).most_toxic) ∧
    (((usersPayloadOf stats minC true).most_liked.filter
        (fun u => minC ≤ (u.comment_count : Int))).take 10 =
      (usersPayloadOf stats minC false).most_liked) := by
  refine ⟨?_, ?_, ?_⟩ <;>
    simp only [usersPayloadOf, if_true, Bool.false_eq_true, if_false] <;>
    rw [filter_sortDescBy]

/-! ## Determinism of the pipeline (claim C8) -/

/-- A record whose author key never needs the
`Anonymous_${Date.now()}_${Math.random()}` fallback: its `user_id` or its
`author_name` is truthy. -/
def hasStableAuthor (c : Comment) : Prop :=
  c.userId.getD "" ≠ "" ∨ c.authorName ≠ ""

instance (c : Comment) : Decidable (hasStableAuthor c) := by
  rw [hasStableAuthor]
  infer_instance

lemma authorKeyOf_env_free (c : Comment) (h : hasStableAuthor c)
    (e1 e2 : Nat → String) (i j : Nat) :
    authorKeyOf e1 i c = authorKeyOf e2 j c := by
  simp only [authorKeyOf, jsOrS]
  by_cases hu : c.userId.getD "" = ""
  · rw [if_pos hu, if_pos hu]
    by_cases ha : c.authorName = ""
    · rcases h with h1 | h1
      · exact absurd hu h1
      · exact absurd ha h1
    · rw [if_neg ha, if_neg ha]
  · rw [if_neg hu, if_neg hu]

lemma buildGroupsGo_env_free (e1 e2 : Nat → String) :
    ∀ (l : List Comment), (∀ c ∈ l, hasStableAuthor c) →
      ∀ (i j : Nat) (m : List (String × UserAcc)),
        buildGroupsGo e1 i m l = buildGroupsGo e2 j m l := by
  intro l
  induction l with
  | nil => intro _ i j m; rfl
  | cons c rest ih =>
    intro hall i j m
    rw [buildGroupsGo, buildGroupsGo]
    have hstep : groupStep e1 i m c = groupStep e2 j m c := by
      rw [groupStep, groupStep]
      cases usersScore c with
      | none => rfl
      | some t =>
        rw [authorKeyOf_env_free c (hall c (List.mem_cons_self _ _)) e1 e2 i j]
    rw [hstep]
    exact ih (fun x hx => hall x (List.mem_cons_of_mem _ hx)) (i + 1) (j + 1) _

/-- C8 (amended): The users-route pipeline is a deterministic function of
the fetched records *provided* every record has a truthy `user_id` or
`author_name`: two runs with different clock/randomness environments
produce identical responses.  Without that proviso the
`Anonymous_${Date.now()}_${Math.random()}` author-key fallback makes the
grouping depend on the environment (see the counterexample). -/
theorem usersResponse_deterministic (records : List Comment)
    (e1 e2 : Nat → String) (minC : Int) (getAll : Bool)
    (h : ∀ c ∈ records, hasStableAuthor c) :
    usersResponse records e1 minC getAll = usersResponse records e2 minC getAll := by
  rw [usersResponse, usersResponse]
  by_cases hrec : records.length = 0
  · rw [if_pos hrec, if_pos hrec]
  · rw [if_neg hrec, if_neg hrec]
    have hgroups : buildGroups e1 records = buildGroups e2 records := by
      rw [buildGroups, buildGroups]
      exact buildGroupsGo_env_free e1 e2 (dedupComments records)
        (fun c hc => h c (mem_of_mem_dedupGo c [] records hc)) 0 0 []
    rw [userStatsList, userStatsList, userStatsKeyed, userStatsKeyed, hgroups]

/-- Witness for C8 (amended): with stable authors, two different
environments give identical responses. -/
theorem usersResponse_deterministic_witness :
    (∀ c ∈ [wRow], hasStableAuthor c) ∧
    usersResponse [wRow] wEnv 2 false =
      usersResponse [wRow] (fun i => toString i) 2 false :=
  ⟨by decide, usersResponse_deterministic [wRow] wEnv (fun i => toString i) 2 false
    (by decide)⟩

/-- A scored record with `user_id` null and `author_name` empty: its author
key is the random fallback. -/
def anonRowA : Comment :=
  ⟨"a", "x", "v", none, "", 0, 0, CommentsData.arr [ToxEntry.eobj (some (1/2))]⟩

/-- A second such record with different text (not a duplicate of the first). -/
def anonRowB : Comment :=
  ⟨"b", "y", "v", none, "", 0, 0, CommentsData.arr [ToxEntry.eobj (some (1/2))]⟩

/-- A run in which the two fallback draws come out distinct (the realistic
`Date.now()`/`Math.random()` behaviour). -/
def envFresh : Nat → String := fun i => if i = 0 then "Anon0" else "Anon1"

/-- A run in which the two fallback draws coincide. -/
def envSame : Nat → String := fun _ => "Anon0"

/-- Extracts `total_users` from a users-route response. -/
def totalUsersOf : RouteResult UsersPayload → Nat
  | RouteResult.success p => p.total_users
  | RouteResult.failure => 0

/-- Counterexample to C8: on records lacking both `user_id` and
`author_name`, the author-key fallback draws fresh values per run, and the
response *differs* between runs: with distinct draws the two records form
two single-comment groups (none reaching the threshold 2), with equal
draws they form one two-comment group. -/
theorem usersResponse_nondeterministic :
    usersResponse [anonRowA, anonRowB] envFresh 2 false ≠
      usersResponse [anonRowA, anonRowB] envSame 2 false := by
  intro hcon
  have h := congrArg totalUsersOf hcon
  have h1 : totalUsersOf (usersResponse [anonRowA, anonRowB] envFresh 2 false) = 0 := by
    decide
  have h2 : totalUsersOf (usersResponse [anonRowA, anonRowB] envSame 2 false) = 1 := by
    decide
  rw [h1, h2] at h
  cases h

/-! ## The correlation estimate (claim C3, src/unnamed/part_012)

The analytics route folds over the *raw* fetched comments — it never
deduplicates — and skips a comment whenever
`c.comments_data?.toxicity_score` is falsy (absent, `null`, or `0`). -/

/-- `c.comments_data?.toxicity_score` as part_012 reads it: the route
treats `comments_data` as a single object, so an array or `null` yields
`undefined`. -/
def corrScore (c : Comment) : Option ℚ :=
  match c.commentsData with
  | CommentsData.obj s => s
  | _ => none

/-- One step of the `correlation.toxicityVsLikes` reduce (lines 96–103). -/
def part012Step (acc : ℚ × Nat) (c : Comment) : ℚ × Nat :=
  match corrScore c with
  | some t => if t = 0 then acc else (acc.1 + t * (c.likeCount : ℚ), acc.2 + 1)
  | none => acc

def part012Fold (comments : List Comment) : ℚ × Nat :=
  comments.foldl part012Step (0, 0)

/-- `coefficient = count > 0 ? sum / count : 0` (lines 108–110). -/
def part012Coefficient (comments : List Comment) : ℚ :=
  let r := part012Fold comments
  if 0 < r.2 then r.1 / (r.2 : ℚ) else 0

lemma part012Fold_spec :
    ∀ (l : List Comment) (s : ℚ) (n : Nat),
      l.foldl part012Step (s, n) =
        (s + ((l.filter (fun c => (corrScore c).getD 0 ≠ 0)).map
            (fun c => (corrScore c).getD 0 * (c.likeCount : ℚ))).sum,
         n + (l.filter (fun c => (corrScore c).getD 0 ≠ 0)).length) := by
  intro l
  induction l with
  | nil => intro s n; simp
  | cons c rest ih =>
    intro s n
    rw [List.foldl_cons]
    cases hsc : corrScore c with
    | none =>
      have hstep : part012Step (s, n) c = (s, n) := by
        simp only [part012Step, hsc]
      rw [hstep, ih, List.filter_cons_of_neg (by simp [hsc])]
    | some t =>
      by_cases ht : t = 0
      · have hstep : part012Step (s, n) c = (s, n) := by
          simp only [part012Step, hsc]
          rw [if_pos ht]
        rw [hstep, ih, List.filter_cons_of_neg (by simp [hsc, ht])]
      · have hstep : part012Step (s, n) c =
            (s + t * (c.likeCount : ℚ), n + 1) := by
          simp only [part012Step, hsc]
          rw [if_neg ht]
        rw [hstep, ih, List.filter_cons_of_pos (by simp [hsc, ht])]
        rw [List.map_cons, List.sum_cons, List.length_cons, Prod.mk.injEq]
        refine ⟨?_, by omega⟩
        rw [hsc]
        simp only [Option.getD_some]
        ring

/-- C3 (amended): The part_012 correlation coefficient equals the
arithmetic mean of `toxicityScore * likeCount` over the *raw fetched*
comments whose score is truthy (present and nonzero) — each stored
duplicate contributes once per occurrence, and the set is not
deduplicated; with no qualifying comment the coefficient is 0. -/
theorem part012_raw_co_moment (comments : List Comment) :
    part012Coefficient comments =
      if (comments.filter (fun c => (corrScore c).getD 0 ≠ 0)).length = 0 then 0
      else ((comments.filter (fun c => (corrScore c).getD 0 ≠ 0)).map
            (fun c => (corrScore c).getD 0 * (c.likeCount : ℚ))).sum /
          ((comments.filter (fun c => (corrScore c).getD 0 ≠ 0)).length : ℚ) := by
  rw [part012Coefficient, part012Fold, part012Fold_spec comments 0 0]
  simp only [zero_add, Nat.zero_add]
  by_cases h : (comments.filter (fun c => (corrScore c).getD 0 ≠ 0)).length = 0
  · rw [if_pos h, h]
    simp
  · rw [if_neg h, if_pos (Nat.pos_of_ne_zero h)]

/-- A scored comment (score 1/2, 4 likes) stored twice. -/
def corrRowA : Comment :=
  ⟨"ca", "p", "v", some "u", "A", 4, 0, CommentsData.obj (some (1/2))⟩

/-- A distinct scored comment (score 1/10, 0 likes). -/
def corrRowB : Comment :=
  ⟨"cb", "q", "v", some "u", "A", 0, 0, CommentsData.obj (some (1/10))⟩

/-- The correlation the claim describes, stated from the claim's words:
the mean of `toxicityScore * likeCount` over the deduplicated,
score-bearing comments (for comparison with part_012). -/
def specDedupCoMoment (comments : List Comment) : ℚ :=
  let prods := (dedupComments comments).filterMap
    (fun c => (corrScore c).map (fun t => t * (c.likeCount : ℚ)))
  if prods.length = 0 then 0 else prods.sum / (prods.length : ℚ)

/-- Counterexample to C3: on a fetch holding the same comment twice plus
one other comment, part_012 averages over the raw occurrences
(`(2 + 2 + 0) / 3 = 4/3`), not over the deduplicated set
(`(2 + 0) / 2 = 1`): the coefficient is not a mean over deduplicated
comments. -/
theorem part012_not_deduplicated :
    part012Coefficient [corrRowA, corrRowA, corrRowB] = 4/3 ∧
    specDedupCoMoment [corrRowA, corrRowA, corrRowB] = 1 := by
  have hd : dedupComments [corrRowA, corrRowA, corrRowB] = [corrRowA, corrRowB] := by
    rfl
  constructor
  · norm_num [part012Coefficient, part012Fold, part012Step, corrScore,
      corrRowA, corrRowB]
  · simp only [specDedupCoMoment]
    rw [hd]
    norm_num [corrScore, corrRowA, corrRowB, List.filterMap_cons]

/-! ## Empty-input boundary (claim C9) -/

lemma chanGo_all_unscored :
    ∀ l : List Comment, (∀ c ∈ l, chanScore c = none) → chanGo [] 0 l = ([], 0) := by
  intro l
  induction l with
  | nil => intro _; rfl
  | cons c rest ih =>
    intro h
    rw [chanGo]
    have hc : chanScore c = none := h c (List.mem_cons_self _ _)
    rw [if_neg (by simp [alookup]), hc]
    exact ih (fun x hx => h x (List.mem_cons_of_mem _ hx))

/-- C9 (amended): On zero qualifying comments each route returns a
well-formed zero-valued summary, never a thrown failure: the
channel-summary route (part_010) returns `video_count` equal to the
channel's video count with `comment_count = 0` and `average_toxicity = 0`
(also when every fetched record lacks a score), and the users route
returns a success payload with empty ranking arrays.  The
complete-analysis route (part_007) also returns a zero summary, but its
`video_count` is the distinct-video count of the fetched comments — `0`,
not the channel's video count (see the counterexample). -/
theorem zero_comments_zero_summary (vc : Nat) (records : List Comment)
    (minC : Int) (env : Nat → String) (getAll : Bool)
    (h : ∀ c ∈ records, chanScore c = none) :
    part010Summarize vc records = ⟨vc, 0, 0⟩ ∧
    part007Channel [] = ⟨0, 0, 0⟩ ∧
    usersResponse [] env minC getAll = RouteResult.success ⟨[], [], [], 0, minC⟩ := by
  refine ⟨?_, rfl, rfl⟩
  rw [part010Summarize]
  by_cases hrec : records.length = 0
  · rw [if_pos hrec]
  · rw [if_neg hrec, chanGo_all_unscored records h]
    simp

/-- Witness for C9 at a channel with 3 videos whose only fetched record
has no toxicity annotation. -/
theorem zero_comments_zero_summary_witness :
    (∀ c ∈ [c6NoScore], chanScore c = none) ∧
    (part010Summarize 3 [c6NoScore] = ⟨3, 0, 0⟩ ∧
     part007Channel [] = ⟨0, 0, 0⟩ ∧
     usersResponse [] wEnv 2 false = RouteResult.success ⟨[], [], [], 0, 2⟩) :=
  ⟨by decide, zero_comments_zero_summary 3 [c6NoScore] 2 wEnv false (by decide)⟩

/-- Counterexample to C9: with zero qualifying comments on a channel that
has 3 videos, the complete-analysis route (part_007) reports
`video_count = 0` — the distinct-video count among fetched comments — not
the channel's video count 3 that the channel-summary route reports. -/
theorem part007_empty_video_count_not_channel :
    (part007Channel []).video_count = 0 ∧
    (part010Summarize 3 []).video_count = 3 ∧ (0 : Nat) ≠ 3 :=
  ⟨rfl, rfl, by decide⟩

/-! ## The minimum-comments threshold (claim C10)

`minComments = Math.max(1, parseInt(param) || default)` with default `'2'`
in the users route and `'1'` in the complete-analysis route. -/

def parseDigitsGo (acc : Nat) : List Char → Nat
  | [] => acc
  | c :: rest => if c.isDigit then parseDigitsGo (acc * 10 + (c.toNat - 48)) rest else acc

def parseDigits : List Char → Option Nat
  | [] => none
  | c :: rest => if c.isDigit then some (parseDigitsGo (c.toNat - 48) rest) else none

/-- JS `parseInt(s)` (radix 10): skip leading whitespace, optional sign,
then the longest digit prefix; `NaN` (here `none`) if there is none. -/
def parseIntJS (s : String) : Option Int :=
  match s.data.dropWhile Char.isWhitespace with
  | '-' :: rest => (parseDigits rest).map (fun n => -(n : Int))
  | '+' :: rest => (parseDigits rest).map (fun n => (n : Int))
  | cs => (parseDigits cs).map (fun n => (n : Int))

/-- `searchParams.get(...) || default`: `null` and `""` are falsy. -/
def paramOr (p : Option String) (d : String) : String :=
  match p with
  | none => d
  | some s => if s = "" then d else s

/-- `x || d` for a possibly-`NaN` number: `NaN` and `0` are falsy. -/
def jsOrNum (x : Option Int) (d : Int) : Int :=
  match x with
  | none => d
  | some v => if v = 0 then d else v

/-- The users route: `Math.max(1, parseInt(param || '2') || 2)`. -/
def minCommentsUsers (p : Option String) : Int :=
  max 1 (jsOrNum (parseIntJS (paramOr p "2")) 2)

/-- The complete-analysis route: `Math.max(1, parseInt(param || '1') || 1)`. -/
def minComments7 (p : Option String) : Int :=
  max 1 (jsOrNum (parseIntJS (paramOr p "1")) 1)

/-- C10 (amended): Both author-ranking operations clamp the effective
threshold to at least 1.  In the users route the threshold is
`max(1, parseInt(p))` except that an absent, unparseable, *or zero*
parameter falls back to the default 2 (JS `||` treats 0 as falsy); the
complete-analysis route computes the same shape with default 1, not 2. -/
theorem minComments_threshold_floor (p : Option String) :
    1 ≤ minCommentsUsers p ∧ 1 ≤ minComments7 p ∧
    minCommentsUsers p = (match parseIntJS (paramOr p "2") with
      | none => 2
      | some v => if v = 0 then 2 else max 1 v) ∧
    minComments7 p = (match parseIntJS (paramOr p "1") with
      | none => 1
      | some v => if v = 0 then 1 else max 1 v) := by
  refine ⟨le_max_left 1 _, le_max_left 1 _, ?_, ?_⟩
  · cases hp : parseIntJS (paramOr p "2") with
    | none => norm_num [minCommentsUsers, jsOrNum, hp]
    | some v =>
      by_cases hv : v = 0
      · norm_num [minCommentsUsers, jsOrNum, hp, hv]
      · norm_num [minCommentsUsers, jsOrNum, hp, hv]
  · cases hp : parseIntJS (paramOr p "1") with
    | none => norm_num [minComments7, jsOrNum, hp]
    | some v =>
      by_cases hv : v = 0
      · norm_num [minComments7, jsOrNum, hp, hv]
      · norm_num [minComments7, jsOrNum, hp, hv]

/-- Counterexample to C10: with the `min_comments` parameter absent, the
complete-analysis route defaults the threshold to 1, not 2; and in the
users route the parseable parameter `"0"` yields threshold 2, not
`max(1, 0) = 1`, because JS `||` treats the parsed 0 as falsy. -/
theorem minComments_default_inconsistent :
    minComments7 none = 1 ∧ minCommentsUsers none = 2 ∧
    minCommentsUsers (some "0") = 2 := by
  refine ⟨by decide, by decide, by decide⟩
